import Mathlib

/-!
Verification of the categorical-choice core (`nevergrad/parametrization/choice.py`)
against its specification.

The weight matrix of the unordered `Choice` variant and the transition data of
the ordered `TransitionChoice` variant are embedded as lists of rationals.
`np.exp` (floating point) is embedded as an explicit function parameter
`expf : ℚ → ℚ`: every property below concerns the *structure* of the
computations (which entries are summed, how indices are clamped, which
branches are touched), never the numeric value of the exponential, and both
the code-side and spec-side definitions receive the same `expf`, so the
comparison is faithful.

Code of collaborator modules that is not part of the repository snapshot
(`discretization.py`, the leaf `Array`/`Scalar` parameters, `core.py`) is
modelled from the specification; each such definition carries a doc comment
starting with `Modelled from the spec:`.
-/

namespace ChoiceSpec

/-! ## Unordered Choice: the `probabilities` property (C1) -/

/-- Sum of `expf` over every entry of the weight matrix: the embedding of
`np.sum(exp)` in `Choice.probabilities`, where `exp = np.exp(self.weights.value)`
is the elementwise exponential of the full matrix. -/
def totalExpSum (expf : ℚ → ℚ) (w : List (List ℚ)) : ℚ :=
  (w.map (fun row => (row.map expf).sum)).sum

/-- Embedding of `Choice.probabilities` (choice.py lines 182-187):
`exp = np.exp(self.weights.value); return exp / np.sum(exp)`.
`np.sum` with no axis argument sums over the whole matrix, so every entry is
divided by the grand total. -/
def probabilities (expf : ℚ → ℚ) (w : List (List ℚ)) : List (List ℚ) :=
  w.map (fun row => row.map (fun x => expf x / totalExpSum expf w))

/-- The spec's description of `probabilities`: the softmax of each weight row,
each row normalized independently by its own sum. -/
def rowSoftmaxSpec (expf : ℚ → ℚ) (w : List (List ℚ)) : List (List ℚ) :=
  w.map (fun row => row.map (fun x => expf x / (row.map expf).sum))

/-- A concrete instantiation of the exponential for counterexamples: the
degree-2 Taylor truncation of `exp`, with `expModel 0 = 1 > 0` as for `np.exp`. -/
def expModel (x : ℚ) : ℚ := 1 + x + x ^ 2 / 2

/-- C1 counterexample: for the 2-repetition weight matrix `[[0], [0]]`
(two rows, arity 1), the code normalizes by the grand total, giving each
entry `1/2`, whereas the per-row softmax claimed by the spec gives `1` in
each row.  So `probabilities` is not the row-wise softmax when the matrix
has more than one row. -/
theorem probabilities_not_rowwise :
    probabilities expModel [[0], [0]] ≠ rowSoftmaxSpec expModel [[0], [0]] := by
  simp [probabilities, rowSoftmaxSpec, totalExpSum, expModel]

/-- C1 (amended): `probabilities` divides each entry's exponential by the sum
of the exponentials of *all* entries of the weight matrix; consequently it
agrees with the spec's row-wise softmax exactly in the single-row case
(repetitions absent or 1), the case the two formulas share. -/
theorem probabilities_global_normalization :
    (∀ (expf : ℚ → ℚ) (w : List (List ℚ)),
      probabilities expf w =
        w.map (fun row => row.map (fun x => expf x / totalExpSum expf w))) ∧
    (∀ (expf : ℚ → ℚ) (row : List ℚ),
      probabilities expf [row] = rowSoftmaxSpec expf [row]) := by
  constructor
  · intro expf w
    rfl
  · intro expf row
    simp [probabilities, rowSoftmaxSpec, totalExpSum]

/-! ## TransitionChoice.mutate: the new-index clamp (C2) -/

/-- Embedding of the index update in `TransitionChoice.mutate` (choice.py
line 301): `new_index = max(0, min(len(self.choices), self.index + sign * move))`,
where `len(self.choices)` is the arity. -/
def mutate_new_index (arity curIndex sign move : ℤ) : ℤ :=
  max 0 (min arity (curIndex + sign * move))

/-- The spec's description: `clamp(current_index + sign*magnitude, 0, arity)`. -/
def clampSpec (x lo hi : ℤ) : ℤ := max lo (min hi x)

/-- C2: the new index written back by `TransitionChoice.mutate` is exactly
`clamp(current_index + sign*magnitude, 0, arity)`, whose upper bound is the
arity itself; and the bound is attained: from the last valid index
`arity - 1`, a forward step of magnitude 1 produces `arity`, one past the
last valid option index. -/
theorem mutate_new_index_clamps_to_arity :
    (∀ arity curIndex sign move : ℤ,
      mutate_new_index arity curIndex sign move =
        clampSpec (curIndex + sign * move) 0 arity) ∧
    (∀ arity : ℤ, 1 ≤ arity → mutate_new_index arity (arity - 1) 1 1 = arity) := by
  constructor
  · intro arity curIndex sign move
    rfl
  · intro arity h
    simp only [mutate_new_index]
    omega

/-- C2 witness: with arity 3, current index 2, sign +1 and magnitude 1, the
mutation computes new index 3, the arity itself. -/
theorem mutate_new_index_clamps_to_arity_witness :
    mutate_new_index 3 2 1 1 = 3 :=
  mutate_new_index_clamps_to_arity.2 3 (by norm_num)

/-! ## Threshold discretization and the TransitionChoice index invariant (C3) -/

/-- Modelled from the spec: `discretization.py` is not part of the snapshot.
§4.2: `index_of(position, arity)` partitions the real line into `arity`
equal-probability intervals under the normal CDF and returns which interval
`position` falls in, clipped to `[0, arity-1]`.  The CDF is an explicit
function parameter. -/
def threshold_discretization (cdf : ℚ → ℚ) (position : ℚ) (arity : ℕ) : ℕ :=
  min (arity - 1) (Int.toNat ⌊(arity : ℚ) * cdf position⌋)

/-- State of a `TransitionChoice`: the continuous scalar `position` backing
the index (the candidate set and transitions vector play no role in the index
invariant). -/
structure TransitionState where
  position : ℚ

/-- Embedding of the `TransitionChoice.index` property (choice.py lines
263-265): `threshold_discretization([position.value], arity)[0]`. -/
def tc_index (cdf : ℚ → ℚ) (arity : ℕ) (s : TransitionState) : ℕ :=
  threshold_discretization cdf s.position arity

/-- Embedding of `TransitionChoice._set_index` (lines 276-278):
`position = inverse_threshold_discretization([index], arity)[0]`, where
`inverse_threshold_discretization` (modelled from the spec, §4.2
`position_for`) is the explicit parameter `posFor`. -/
def tc_set_index (posFor : ℕ → ℚ) (index : ℕ) : TransitionState :=
  { position := posFor index }

/-- Embedding of `TransitionChoice.mutate` (lines 292-304) restricted to the
index-relevant steps: the sampled step magnitude `move` and the direction
`sign` are supplied as oracle inputs, the new index is
`max(0, min(arity, index + sign * move))`, and it is written back through
`position_for`. -/
def tc_mutate (cdf : ℚ → ℚ) (posFor : ℕ → ℚ) (arity : ℕ)
    (sign move : ℤ) (s : TransitionState) : TransitionState :=
  tc_set_index posFor
    (mutate_new_index (arity : ℤ) (tc_index cdf arity s : ℤ) sign move).toNat

/-- A finite sequence of `mutate` calls, each with its own sampled sign and
magnitude. -/
def tc_mutate_seq (cdf : ℚ → ℚ) (posFor : ℕ → ℚ) (arity : ℕ)
    (s : TransitionState) (steps : List (ℤ × ℤ)) : TransitionState :=
  steps.foldl (fun st step => tc_mutate cdf posFor arity step.1 step.2 st) s

/-- C3: for every CDF model, every `position_for` model, every starting state
and every finite sequence of `mutate()` calls, the `index` property of a
`TransitionChoice` of arity `k` stays at most `k - 1` (and is a natural
number, hence at least 0): even though `mutate` may write back the
out-of-range index `k`, the `index` read clips through
`threshold_discretization`. -/
theorem tc_index_stays_in_range
    (cdf : ℚ → ℚ) (posFor : ℕ → ℚ) (arity : ℕ)
    (s : TransitionState) (steps : List (ℤ × ℤ)) :
    tc_index cdf arity (tc_mutate_seq cdf posFor arity s steps) ≤ arity - 1 := by
  exact Nat.min_le_left _ _

/-! ## Choice value assignment resets the weight matrix (C4) -/

/-- Modelled from the spec: `discretization.weight_for_reset(arity)` is not
part of the snapshot.  §4.1: a confidence magnitude large enough that
deterministic decoding of a row that is zero except for this value in one
column reproduces that column.  The claims below depend only on where the
value is placed, so any arity-determined value serves. -/
def weight_for_reset (arity : ℕ) : ℚ := arity

/-- Embedding of `self.weights._value.fill(0.0)` (line 200): zero the full
weight matrix. -/
def fill_zero (w : List (List ℚ)) : List (List ℚ) :=
  w.map (fun row => row.map (fun _ => 0))

/-- Embedding of `out[np.arange(indices.size), indices] = coeff` (line 202):
for each `r` below `indices.size`, row `r` of `out` receives `coeff` at
column `indices[r]`; rows beyond `indices.size` are untouched. -/
def place_coeff : List (List ℚ) → List ℕ → ℚ → List (List ℚ)
  | [], _, _ => []
  | w, [], _ => w
  | row :: rest, idx :: idxRest, coeff => row.set idx coeff :: place_coeff rest idxRest coeff

/-- Modelled from the spec: the leaf weight array's standardized-data hook
(`Array.set_standardized_data`, not part of the snapshot).  §6: the flat
vector update propagates into the backing; the backing has just been zeroed
and the weights array is created with unit sigma and no reference shift, so
the new backing value is the supplied data itself. -/
def set_standardized_data (_current data : List (List ℚ)) : List (List ℚ) :=
  data

/-- Embedding of the weight-reset portion of `Choice._find_and_set_value`
(lines 197-203): `arity = weights.value.shape[1]`,
`coeff = weight_for_reset(arity)`, zero the matrix, build `out` as the zeroed
matrix with `coeff` at the drawn column of each row, and push `out` through
the standardized-data hook. -/
def reset_weights (w : List (List ℚ)) (indices : List ℕ) : List (List ℚ) :=
  let arity := (w.headD []).length
  let coeff := weight_for_reset arity
  let zeroed := fill_zero w
  let out := place_coeff zeroed indices coeff
  set_standardized_data zeroed out

theorem fill_zero_eq_shape (w : List (List ℚ)) :
    fill_zero w = (w.map List.length).map (fun n => List.replicate n (0 : ℚ)) := by
  simp [fill_zero, List.map_const']

theorem place_coeff_getElem? (w : List (List ℚ)) (indices : List ℕ) (coeff : ℚ) (r : ℕ) :
    (place_coeff w indices coeff)[r]? =
      match w[r]?, indices[r]? with
      | some row, some idx => some (row.set idx coeff)
      | some row, none => some row
      | none, _ => none := by
  induction w generalizing indices r with
  | nil => cases indices <;> simp [place_coeff]
  | cons row rest ih =>
    cases indices with
    | nil =>
      cases r with
      | zero => simp [place_coeff]
      | succ n => cases h : rest[n]? <;> simp [place_coeff, h]
    | cons idx idxRest =>
      cases r with
      | zero => simp [place_coeff]
      | succ n => simpa [place_coeff] using ih idxRest n

theorem set_replicate_getD (n idx c : ℕ) (a : ℚ) (hc : c < n) :
    ((List.replicate n (0 : ℚ)).set idx a).getD c 0 = if c = idx then a else 0 := by
  rw [List.getD_eq_getElem?_getD, List.getElem?_set]
  by_cases h : idx = c
  · subst h
    simp [List.length_replicate, hc]
  · rw [if_neg h]
    simp [List.getElem?_replicate, hc, if_neg (fun hh : c = idx => h hh.symm)]

/-- C4: the weight matrix produced by a successful `set_value` on an
unordered `Choice` is independent of the prior weight values (only the shape
of the matrix — hence the arity — matters), and its entries are zero
everywhere except that row `r` holds `weight_for_reset(arity)` at exactly the
drawn column `indices[r]`. -/
theorem reset_weights_overwrites
    (w w' : List (List ℚ)) (indices : List ℕ)
    (hshape : w.map List.length = w'.map List.length) :
    reset_weights w indices = reset_weights w' indices ∧
    (∀ r c : ℕ, r < indices.length → r < w.length → c < (w.getD r []).length →
      ((reset_weights w indices).getD r []).getD c 0 =
        if c = indices.getD r 0 then weight_for_reset (w.headD []).length else 0) := by
  constructor
  · have hhead : (w.headD []).length = (w'.headD []).length := by
      cases w with
      | nil =>
        cases w' with
        | nil => rfl
        | cons r' t' => simp at hshape
      | cons r t =>
        cases w' with
        | nil => simp at hshape
        | cons r' t' =>
          simp only [List.map_cons, List.cons.injEq] at hshape
          simpa using hshape.1
    simp only [reset_weights, set_standardized_data, fill_zero_eq_shape, hshape, hhead]
  · intro r c hr hrw hc
    have hgetr : r < w.length := hrw
    have hwr : w[r]? = some (w.getD r []) := by
      rw [List.getD_eq_getElem?_getD, List.getElem?_eq_getElem hgetr]
      rfl
    have hir : indices[r]? = some (indices.getD r 0) := by
      rw [List.getD_eq_getElem?_getD, List.getElem?_eq_getElem hr]
      rfl
    have hzr : (fill_zero w)[r]? = some (List.replicate (w.getD r []).length (0 : ℚ)) := by
      simp only [fill_zero, List.getElem?_map, hwr, Option.map_some', List.map_const']
    have hrow : (reset_weights w indices)[r]? =
        some ((List.replicate (w.getD r []).length (0 : ℚ)).set (indices.getD r 0)
          (weight_for_reset (w.headD []).length)) := by
      simp only [reset_weights, set_standardized_data, place_coeff_getElem?, hzr, hir]
    have hgd : (reset_weights w indices).getD r [] =
        (List.replicate (w.getD r []).length (0 : ℚ)).set (indices.getD r 0)
          (weight_for_reset (w.headD []).length) := by
      rw [List.getD_eq_getElem?_getD, hrow]
      rfl
    rw [hgd, set_replicate_getD _ _ _ _ hc]

/-- C4 witness: a concrete 2×2 instance — prior weights `[[5, 7], [9, 11]]`
versus `[[0, 0], [0, 0]]` with drawn indices `[1, 0]` give the same reset
matrix, whose entry (0,1) is the confidence value and entry (0,0) is zero. -/
theorem reset_weights_overwrites_witness :
    reset_weights [[5, 7], [9, 11]] [1, 0] = reset_weights [[0, 0], [0, 0]] [1, 0] ∧
    ((reset_weights [[5, 7], [9, 11]] [1, 0]).getD 0 []).getD 1 0 =
      weight_for_reset 2 ∧
    ((reset_weights [[5, 7], [9, 11]] [1, 0]).getD 0 []).getD 0 0 = 0 := by
  have h := reset_weights_overwrites [[5, 7], [9, 11]] [[0, 0], [0, 0]] [1, 0] (by simp)
  refine ⟨h.1, ?_, ?_⟩
  · have := h.2 0 1 (by norm_num) (by norm_num) (by simp)
    simpa using this
  · have := h.2 0 0 (by norm_num) (by norm_num) (by simp)
    simpa using this

/-! ## BaseChoice value assignment: trial dispatch and the frozen check (C5, C6) -/

/-- A candidate option as seen by `BaseChoice._find_and_set_value`: setting
`choice.value = value` either succeeds and stores the value, or raises.
Which values a given candidate accepts is the candidate's own (collaborator)
behavior, embedded as the `accepts` predicate; `stored` is its current
value. -/
structure Candidate (V : Type) where
  accepts : V → Bool
  stored : V

/-- Embedding of the `try: choice.value = value / except: pass` body (lines
83-88): a raised exception is `none` (swallowed by the caller), success
returns the updated candidate. -/
def trySetCandidate {V : Type} (c : Candidate V) (v : V) : Option (Candidate V) :=
  if c.accepts v then some { c with stored := v } else none

/-- Embedding of the inner loop `for k in nums` (lines 81-88): candidates are
tried in ascending key order (the keys of the candidate Tuple are 0..arity-1,
so ascending key order is list order); the first successful assignment
returns its index and the updated candidate list, and the loop breaks —
later candidates are not tried. -/
def find_candidate {V : Type} : List (Candidate V) → V → Option (ℕ × List (Candidate V))
  | [], _ => none
  | c :: rest, v =>
    match trySetCandidate c v with
    | some c1 => some (0, c1 :: rest)
    | none =>
      match find_candidate rest v with
      | none => none
      | some (k, rest1) => some (k + 1, c :: rest1)

/-- The shared state `BaseChoice._find_and_set_value` acts on: the frozen
flag (owned by the surrounding tree machinery) and the candidate list. -/
structure ChoiceCore (V : Type) where
  frozen : Bool
  candidates : List (Candidate V)

/-- Embedding of the outer loop `for i, value in enumerate(values)` (lines
80-90): each value is dispatched through `find_candidate`; if no candidate in
the whole set accepts it (`indices[i] == -1`), the operation fails with the
no-matching-candidate error. -/
def assign_values {V : Type} :
    List (Candidate V) → List V → Except String (List ℕ × List (Candidate V))
  | cands, [] => Except.ok ([], cands)
  | cands, v :: vs =>
    match find_candidate cands v with
    | none => Except.error "Could not figure out where to put value"
    | some (k, cands1) =>
      match assign_values cands1 vs with
      | Except.error e => Except.error e
      | Except.ok (ks, cands2) => Except.ok (k :: ks, cands2)

/-- Embedding of `BaseChoice._find_and_set_value` (lines 72-91): first
`self._check_frozen()` (modelled from the spec: the frozen-check collaborator
primitive fails before any mutation when the instance is frozen), then the
dispatch loop. -/
def find_and_set_value {V : Type} (s : ChoiceCore V) (values : List V) :
    Except String (List ℕ × List (Candidate V)) :=
  if s.frozen then Except.error "Cannot modify frozen Parameter"
  else assign_values s.candidates values

theorem find_candidate_accepts_eq {V : Type} (cands : List (Candidate V)) (v : V)
    (k : ℕ) (cands1 : List (Candidate V))
    (h : find_candidate cands v = some (k, cands1)) :
    cands1.map (fun c => c.accepts) = cands.map (fun c => c.accepts) := by
  induction cands generalizing k cands1 with
  | nil => simp [find_candidate] at h
  | cons c rest ih =>
    by_cases hacc : c.accepts v
    · simp [find_candidate, trySetCandidate, hacc] at h
      obtain ⟨hk, hc⟩ := h
      simp [← hc]
    · simp only [find_candidate, trySetCandidate, hacc] at h
      simp only [Bool.false_eq_true, if_false] at h
      cases hrest : find_candidate rest v with
      | none => rw [hrest] at h; simp at h
      | some p =>
        rw [hrest] at h
        obtain ⟨k1, rest1⟩ := p
        simp at h
        obtain ⟨hk, hc⟩ := h
        subst hc
        simp [ih k1 rest1 hrest]

theorem findIdx_congr_accepts {V : Type} (l1 l2 : List (Candidate V))
    (h : l1.map (fun c => c.accepts) = l2.map (fun c => c.accepts)) (v : V) :
    l1.findIdx (fun c => c.accepts v) = l2.findIdx (fun c => c.accepts v) := by
  induction l1 generalizing l2 with
  | nil =>
    cases l2 with
    | nil => rfl
    | cons b t2 => simp at h
  | cons a t ih =>
    cases l2 with
    | nil => simp at h
    | cons b t2 =>
      simp only [List.map_cons, List.cons.injEq] at h
      rw [List.findIdx_cons, List.findIdx_cons, congrFun h.1 v, ih t2 h.2]

theorem exists_accepts_congr {V : Type} (l1 l2 : List (Candidate V))
    (h : l1.map (fun c => c.accepts) = l2.map (fun c => c.accepts)) (v : V) :
    (∃ c ∈ l1, c.accepts v = true) ↔ ∃ c ∈ l2, c.accepts v = true := by
  induction l1 generalizing l2 with
  | nil =>
    cases l2 with
    | nil => simp
    | cons b t2 => simp at h
  | cons a t ih =>
    cases l2 with
    | nil => simp at h
    | cons b t2 =>
      simp only [List.map_cons, List.cons.injEq] at h
      simp only [List.mem_cons, exists_eq_or_imp]
      rw [congrFun h.1 v, ih t2 h.2]

theorem forall_not_accepts_congr {V : Type} (l1 l2 : List (Candidate V))
    (h : l1.map (fun c => c.accepts) = l2.map (fun c => c.accepts)) (v : V) :
    (∀ c ∈ l1, c.accepts v = false) ↔ ∀ c ∈ l2, c.accepts v = false := by
  induction l1 generalizing l2 with
  | nil =>
    cases l2 with
    | nil => simp
    | cons b t2 => simp at h
  | cons a t ih =>
    cases l2 with
    | nil => simp at h
    | cons b t2 =>
      simp only [List.map_cons, List.cons.injEq] at h
      simp only [List.mem_cons, forall_eq_or_imp]
      rw [congrFun h.1 v, ih t2 h.2]

theorem find_candidate_none_iff {V : Type} (cands : List (Candidate V)) (v : V) :
    find_candidate cands v = none ↔ ∀ c ∈ cands, c.accepts v = false := by
  induction cands with
  | nil => simp [find_candidate]
  | cons c rest ih =>
    by_cases hacc : c.accepts v
    · simp [find_candidate, trySetCandidate, hacc]
    · have hacc1 : c.accepts v = false := by simpa using hacc
      have hstep : find_candidate (c :: rest) v = none ↔ find_candidate rest v = none := by
        simp only [find_candidate, trySetCandidate, hacc1, Bool.false_eq_true, if_false]
        cases find_candidate rest v with
        | none => simp
        | some p =>
          obtain ⟨k1, r1⟩ := p
          simp
      rw [hstep, ih]
      simp [List.mem_cons, forall_eq_or_imp, hacc1]

theorem find_candidate_findIdx {V : Type} (cands : List (Candidate V)) (v : V)
    (k : ℕ) (cands1 : List (Candidate V))
    (h : find_candidate cands v = some (k, cands1)) :
    k = cands.findIdx (fun c => c.accepts v) := by
  induction cands generalizing k cands1 with
  | nil => simp [find_candidate] at h
  | cons c rest ih =>
    by_cases hacc : c.accepts v
    · simp [find_candidate, trySetCandidate, hacc] at h
      simp [List.findIdx_cons, hacc, ← h.1]
    · simp only [find_candidate, trySetCandidate, hacc] at h
      simp only [Bool.false_eq_true, if_false] at h
      cases hrest : find_candidate rest v with
      | none => rw [hrest] at h; simp at h
      | some p =>
        rw [hrest] at h
        obtain ⟨k1, rest1⟩ := p
        simp at h
        rw [List.findIdx_cons]
        simp only [hacc]
        simp [← h.1, ih k1 rest1 hrest]

theorem find_candidate_is_some {V : Type} (cands : List (Candidate V)) (v : V)
    (hex : ∃ c ∈ cands, c.accepts v = true) :
    ∃ k cands1, find_candidate cands v = some (k, cands1) := by
  cases hfc : find_candidate cands v with
  | none =>
    obtain ⟨c, hc, hacc⟩ := hex
    have := (find_candidate_none_iff cands v).mp hfc c hc
    rw [hacc] at this
    exact absurd this (by simp)
  | some p => exact ⟨p.1, p.2, rfl⟩

theorem assign_values_ok {V : Type} (cands : List (Candidate V)) (values : List V)
    (hall : ∀ v ∈ values, ∃ c ∈ cands, c.accepts v = true) :
    ∃ cands2, assign_values cands values =
      Except.ok (values.map (fun v => cands.findIdx (fun c => c.accepts v)), cands2) := by
  induction values generalizing cands with
  | nil => exact ⟨cands, rfl⟩
  | cons v vs ih =>
    obtain ⟨k, cands1, hfc⟩ :=
      find_candidate_is_some cands v (hall v (List.mem_cons_self v vs))
    have haccs := find_candidate_accepts_eq cands v k cands1 hfc
    have hall1 : ∀ u ∈ vs, ∃ c ∈ cands1, c.accepts u = true := fun u hu =>
      (exists_accepts_congr cands1 cands haccs u).mpr (hall u (List.mem_cons_of_mem v hu))
    obtain ⟨cands2, hrec⟩ := ih cands1 hall1
    refine ⟨cands2, ?_⟩
    have hmap : vs.map (fun u => cands1.findIdx (fun c => c.accepts u)) =
        vs.map (fun u => cands.findIdx (fun c => c.accepts u)) :=
      List.map_congr_left fun u _ => findIdx_congr_accepts cands1 cands haccs u
    rw [hmap] at hrec
    simp only [assign_values, hfc, hrec, List.map_cons]
    rw [find_candidate_findIdx cands v k cands1 hfc]

theorem assign_values_no_match {V : Type} (cands : List (Candidate V)) (values : List V)
    (hex : ∃ v ∈ values, ∀ c ∈ cands, c.accepts v = false) :
    assign_values cands values = Except.error "Could not figure out where to put value" := by
  induction values generalizing cands with
  | nil => simp at hex
  | cons v vs ih =>
    by_cases hv : ∀ c ∈ cands, c.accepts v = false
    · have hnone := (find_candidate_none_iff cands v).mpr hv
      simp [assign_values, hnone]
    · obtain ⟨c, hc, hacc⟩ : ∃ c ∈ cands, c.accepts v = true := by
        push_neg at hv
        obtain ⟨c, hc, hne⟩ := hv
        exact ⟨c, hc, by simpa using hne⟩
      obtain ⟨k, cands1, hfc⟩ := find_candidate_is_some cands v ⟨c, hc, hacc⟩
      have haccs := find_candidate_accepts_eq cands v k cands1 hfc
      have hex1 : ∃ u ∈ vs, ∀ c1 ∈ cands1, c1.accepts u = false := by
        obtain ⟨u, hu, hno⟩ := hex
        rcases List.mem_cons.mp hu with hvu | hvs
        · exfalso
          subst hvu
          have h2 := hno c hc
          rw [hacc] at h2
          simp at h2
        · exact ⟨u, hvs, (forall_not_accepts_congr cands1 cands haccs u).mpr hno⟩
      have hrec := ih cands1 hex1
      simp only [assign_values, hfc]
      rw [hrec]

/-- C5: on an unfrozen choice, `set_value` with a list of values tries the
candidates for each value in ascending key order with per-candidate failures
swallowed; the resolved index of each value is the least key whose candidate
accepts it (first success wins, later candidates untried), and if some value
is accepted by no candidate in the whole set the operation fails with the
no-matching-candidate error. -/
theorem find_and_set_value_dispatch {V : Type} (s : ChoiceCore V) (values : List V)
    (hfrozen : s.frozen = false) :
    ((∀ v ∈ values, ∃ c ∈ s.candidates, c.accepts v = true) →
      ∃ cands2, find_and_set_value s values =
        Except.ok
          (values.map (fun v => s.candidates.findIdx (fun c => c.accepts v)), cands2)) ∧
    ((∃ v ∈ values, ∀ c ∈ s.candidates, c.accepts v = false) →
      find_and_set_value s values =
        Except.error "Could not figure out where to put value") := by
  constructor
  · intro hall
    obtain ⟨cands2, h⟩ := assign_values_ok s.candidates values hall
    exact ⟨cands2, by simp [find_and_set_value, hfrozen, h]⟩
  · intro hex
    simp [find_and_set_value, hfrozen, assign_values_no_match s.candidates values hex]

/-- C5 witness: two candidates over ℕ — candidate 0 accepts even numbers,
candidate 1 accepts everything.  Assigning `[3, 2]` resolves 3 to index 1 and
2 to index 0 (the least accepting key each time) and succeeds. -/
theorem find_and_set_value_dispatch_witness :
    ∃ cands2,
      find_and_set_value
        (ChoiceCore.mk false
          [⟨fun v => v % 2 == 0, 0⟩, ⟨fun _ => true, 0⟩])
        [3, 2] =
      Except.ok
        ([3, 2].map (fun v =>
          [(⟨fun v => v % 2 == 0, 0⟩ : Candidate ℕ), ⟨fun _ => true, 0⟩].findIdx
            (fun c => c.accepts v)), cands2) :=
  (find_and_set_value_dispatch
      (ChoiceCore.mk false [⟨fun v => v % 2 == 0, 0⟩, ⟨fun _ => true, 0⟩])
      [3, 2] rfl).1
    (by decide)

/-- C6: on a frozen choice, `set_value` fails with the frozen-parameter error
before attempting assignment into any candidate: no candidate, weight or
index state is produced, so the externally visible value is unchanged by the
failed call. -/
theorem find_and_set_value_frozen {V : Type} (s : ChoiceCore V) (values : List V)
    (hfrozen : s.frozen = true) :
    find_and_set_value s values = Except.error "Cannot modify frozen Parameter" := by
  simp [find_and_set_value, hfrozen]

/-- C6 witness: a concrete frozen instance rejects the assignment. -/
theorem find_and_set_value_frozen_witness :
    find_and_set_value (ChoiceCore.mk true [(⟨fun _ => true, 0⟩ : Candidate ℕ)]) [5] =
      Except.error "Cannot modify frozen Parameter" :=
  find_and_set_value_frozen (ChoiceCore.mk true [⟨fun _ => true, 0⟩]) [5] rfl

/-! ## The discretization encoder and repeated draws (C8) -/

/-- Modelled from the spec (§4.1): sampling a column from the categorical
distribution of a weight row.  Inverse-CDF sampling over the positive masses
`expf(w_j)` with a per-row uniform draw `u`: sampling from the softmax
probabilities `expf(w_j)/Σ_k expf(w_k)` with `u₀` uniform on `[0,1)` is
inverse-CDF sampling of the unnormalized masses at `u = u₀ · Σ_k expf(w_k)`.
Returns the least column whose cumulative mass exceeds `u`, with the last
column as fallback, so the result is a valid column of any nonempty row. -/
def categorical_sample : List ℚ → ℚ → ℕ
  | [], _ => 0
  | [_], _ => 0
  | m :: m2 :: rest, u =>
    if u < m then 0 else categorical_sample (m2 :: rest) (u - m) + 1

theorem categorical_sample_lt (l : List ℚ) (u : ℚ) (h : l ≠ []) :
    categorical_sample l u < l.length := by
  induction l generalizing u with
  | nil => simp at h
  | cons m rest ih =>
    cases rest with
    | nil => simp [categorical_sample]
    | cons m2 r2 =>
      by_cases hu : u < m
      · simp [categorical_sample, hu]
      · simp only [categorical_sample, if_neg hu, List.length_cons]
        have := ih (u - m) (by simp)
        simpa using Nat.succ_lt_succ this

/-- Modelled from the spec (§4.1): the deterministic decode of a row: the
column with the maximum weight, ties broken by first occurrence. -/
def argmax_row (row : List ℚ) : ℕ :=
  (List.range row.length).foldl
    (fun best j => if row.getD best 0 < row.getD j 0 then j else best) 0

theorem foldl_argmax_lt (row : List ℚ) (l : List ℕ) (b n : ℕ)
    (hb : b < n) (hl : ∀ x ∈ l, x < n) :
    l.foldl (fun best j => if row.getD best 0 < row.getD j 0 then j else best) b < n := by
  induction l generalizing b with
  | nil => exact hb
  | cons j t ih =>
    simp only [List.foldl_cons]
    apply ih
    · by_cases h : row.getD b 0 < row.getD j 0
      · rw [if_pos h]
        exact hl j (List.mem_cons_self j t)
      · rw [if_neg h]
        exact hb
    · exact fun x hx => hl x (List.mem_cons_of_mem j hx)

theorem argmax_row_lt (row : List ℚ) (h : row ≠ []) :
    argmax_row row < row.length := by
  refine foldl_argmax_lt row (List.range row.length) 0 row.length ?_ ?_
  · exact List.length_pos.mpr h
  · intro x hx
    exact List.mem_range.mp hx

/-- Modelled from the spec (§4.1): one-row decode of `Encoder.encode`: pick
the argmax column when deterministic, otherwise sample from the softmax
categorical distribution of the row with the row's uniform draw `u`. -/
def row_decode (expf : ℚ → ℚ) (deterministic : Bool) (row : List ℚ) (u : ℚ) : ℕ :=
  if deterministic then argmax_row row else categorical_sample (row.map expf) u

theorem row_decode_lt (expf : ℚ → ℚ) (deterministic : Bool) (row : List ℚ) (u : ℚ)
    (h : row ≠ []) :
    row_decode expf deterministic row u < row.length := by
  rw [row_decode]
  cases deterministic with
  | false =>
    simpa using categorical_sample_lt (row.map expf) u (by simpa using h)
  | true => simpa using argmax_row_lt row h

/-- Modelled from the spec (§4.1): `Encoder.encode(weights, rng, deterministic)`:
each row of the weight matrix is decoded independently, using one uniform
draw from the random source per row (`us`). -/
def encode (expf : ℚ → ℚ) (deterministic : Bool)
    (w : List (List ℚ)) (us : List ℚ) : List ℕ :=
  List.zipWith (fun row u => row_decode expf deterministic row u) w us

/-- Embedding of `Choice._get_value` in the repetitions case (lines 189-192):
the ordered tuple of the values of the options at the drawn indices. -/
def choice_value {V : Type} [Inhabited V] (options : List V) (indices : List ℕ) :
    List V :=
  indices.map (fun i => options.getD i default)

theorem encode_length (expf : ℚ → ℚ) (deterministic : Bool)
    (w : List (List ℚ)) (us : List ℚ) (n : ℕ)
    (hrows : w.length = n) (hus : us.length = n) :
    (encode expf deterministic w us).length = n := by
  rw [encode, List.length_zipWith, hrows, hus, min_self]

theorem encode_mem_lt (expf : ℚ → ℚ) (deterministic : Bool)
    (w : List (List ℚ)) (us : List ℚ) (k : ℕ)
    (hcols : ∀ row ∈ w, row.length = k) (hk : 0 < k) :
    ∀ i ∈ encode expf deterministic w us, i < k := by
  intro i hi
  obtain ⟨r, hr⟩ := List.mem_iff_getElem?.mp hi
  rw [encode, List.getElem?_zipWith] at hr
  cases hw : w[r]? with
  | none => rw [hw] at hr; simp at hr
  | some row =>
    cases hu : us[r]? with
    | none => rw [hw, hu] at hr; simp at hr
    | some u =>
      rw [hw, hu] at hr
      simp only [Option.some.injEq] at hr
      have hrow : row ∈ w := List.getElem?_mem hw
      have hlen : row.length = k := hcols row hrow
      have hne : row ≠ [] := by
        intro hnil
        rw [hnil] at hlen
        simp at hlen
        omega
      have := row_decode_lt expf deterministic row u hne
      rw [hlen] at this
      rw [hr] at this
      exact this

/-- C8: for a `Choice` with `repetitions = n` over a nonempty option list
(every weight row has one column per option and the encoder receives one
uniform draw per row), the drawn `indices` have length `n`; each drawn index
is in range; `value` is the ordered `n`-tuple whose `i`-th component is the
value of the option at `indices[i]`, so each component is one of the declared
options; and each row is decoded independently: the index drawn for row `r`
depends only on row `r` of the weight matrix and the `r`-th uniform draw. -/
theorem choice_repetitions_draws {V : Type} [Inhabited V]
    (expf : ℚ → ℚ) (deterministic : Bool) (options : List V)
    (n : ℕ) (w : List (List ℚ)) (us : List ℚ)
    (hrows : w.length = n) (hus : us.length = n)
    (hcols : ∀ row ∈ w, row.length = options.length)
    (hopts : options ≠ []) :
    (encode expf deterministic w us).length = n ∧
    (∀ i ∈ encode expf deterministic w us, i < options.length) ∧
    (choice_value options (encode expf deterministic w us)).length = n ∧
    (∀ x ∈ choice_value options (encode expf deterministic w us), x ∈ options) ∧
    (∀ (w2 : List (List ℚ)) (r : ℕ), w[r]? = w2[r]? →
      (encode expf deterministic w us)[r]? = (encode expf deterministic w2 us)[r]?) := by
  have hlen := encode_length expf deterministic w us n hrows hus
  have hmem := encode_mem_lt expf deterministic w us options.length hcols
    (List.length_pos.mpr hopts)
  refine ⟨hlen, hmem, ?_, ?_, ?_⟩
  · rw [choice_value, List.length_map, hlen]
  · intro x hx
    rw [choice_value, List.mem_map] at hx
    obtain ⟨i, hi, hxi⟩ := hx
    have hlt := hmem i hi
    rw [← hxi, List.getD_eq_getElem options default hlt]
    exact List.getElem_mem hlt
  · intro w2 r hr
    rw [encode, encode, List.getElem?_zipWith, List.getElem?_zipWith, hr]

/-- C8 witness: a 3-repetition `Choice` over options `[10, 20, 30]` with a
concrete 3-by-3 weight matrix and concrete uniform draws. -/
theorem choice_repetitions_draws_witness :
    (encode expModel false [[0, 1, 2], [1, 0, 0], [2, 2, 2]] [0, 1, 5]).length = 3 ∧
    (∀ i ∈ encode expModel false [[0, 1, 2], [1, 0, 0], [2, 2, 2]] [0, 1, 5],
      i < ([10, 20, 30] : List ℕ).length) ∧
    (choice_value ([10, 20, 30] : List ℕ)
      (encode expModel false [[0, 1, 2], [1, 0, 0], [2, 2, 2]] [0, 1, 5])).length = 3 ∧
    (∀ x ∈ choice_value ([10, 20, 30] : List ℕ)
      (encode expModel false [[0, 1, 2], [1, 0, 0], [2, 2, 2]] [0, 1, 5]),
      x ∈ ([10, 20, 30] : List ℕ)) ∧
    (∀ (w2 : List (List ℚ)) (r : ℕ),
      [[(0 : ℚ), 1, 2], [1, 0, 0], [2, 2, 2]][r]? = w2[r]? →
      (encode expModel false [[0, 1, 2], [1, 0, 0], [2, 2, 2]] [0, 1, 5])[r]? =
        (encode expModel false w2 [0, 1, 5])[r]?) :=
  choice_repetitions_draws expModel false [10, 20, 30] 3
    [[0, 1, 2], [1, 0, 0], [2, 2, 2]] [0, 1, 5]
    rfl rfl (by intro row hrow; fin_cases hrow <;> rfl) (by simp)

/-! ## Choice.mutate touches only the drawn options (C7) -/

/-- State of an unordered `Choice`: the weight matrix, the option internal
states (abstract type `σ`), and the drawn indices. -/
structure ChoiceState (σ : Type) where
  weights : List (List ℚ)
  options : List σ
  indices : List ℕ

/-- Embedding of `Choice.mutate` (lines 214-221): mutate the weight backing
(its continuous-mutation policy is the collaborator's; its result is the
oracle input `newWeights`), redraw the indices from the new weights via the
encoder with fresh uniform draws `us`, then mutate each option in
`set(self.indices)` — each distinct drawn index once — leaving the rest
untouched.  The option's own `mutate` is the collaborator function
`mutOpt`. -/
def choice_mutate {σ : Type} (expf : ℚ → ℚ) (deterministic : Bool) (mutOpt : σ → σ)
    (newWeights : List (List ℚ)) (us : List ℚ) (s : ChoiceState σ) : ChoiceState σ :=
  let idxs := encode expf deterministic newWeights us
  { weights := newWeights
    indices := idxs
    options := idxs.dedup.foldl (fun os ind => os.modify mutOpt ind) s.options }

theorem foldl_modify_getElem?_of_not_mem {σ : Type} (f : σ → σ) (l : List ℕ)
    (os : List σ) (j : ℕ) (hj : j ∉ l) :
    (l.foldl (fun os ind => os.modify f ind) os)[j]? = os[j]? := by
  induction l generalizing os with
  | nil => rfl
  | cons i t ih =>
    have hij : i ≠ j := fun h => hj (h ▸ List.mem_cons_self i t)
    have hjt : j ∉ t := fun h => hj (List.mem_cons_of_mem i h)
    simp only [List.foldl_cons]
    rw [ih (os.modify f i) hjt]
    simp [List.getElem?_modify, hij]

theorem foldl_modify_getElem?_of_mem {σ : Type} (f : σ → σ) (l : List ℕ)
    (os : List σ) (j : ℕ) (hnd : l.Nodup) (hj : j ∈ l) :
    (l.foldl (fun os ind => os.modify f ind) os)[j]? = os[j]?.map f := by
  revert hnd hj
  induction l generalizing os with
  | nil =>
    intro _ hj
    simp at hj
  | cons i t ih =>
    intro hnd hj
    simp only [List.foldl_cons]
    rcases List.mem_cons.mp hj with hji | hjt
    · subst hji
      have hit : j ∉ t := (List.nodup_cons.mp hnd).1
      rw [foldl_modify_getElem?_of_not_mem f t (os.modify f j) j hit]
      simp [List.getElem?_modify]
    · have hij : i ≠ j := by
        intro h
        subst h
        exact (List.nodup_cons.mp hnd).1 hjt
      rw [ih (os.modify f i) (List.nodup_cons.mp hnd).2 hjt]
      simp [List.getElem?_modify, hij]

/-- C7: `Choice.mutate` replaces the weight backing with its mutated value,
redraws the indices from the new weights, and mutates exactly the options
whose index was drawn in that call: an option at a non-drawn index is
unchanged, an option at a drawn index is replaced by its own mutation (once,
even when its index was drawn several times). -/
theorem choice_mutate_frame {σ : Type} (expf : ℚ → ℚ) (deterministic : Bool)
    (mutOpt : σ → σ) (newWeights : List (List ℚ)) (us : List ℚ)
    (s : ChoiceState σ) (j : ℕ) :
    (choice_mutate expf deterministic mutOpt newWeights us s).weights = newWeights ∧
    (choice_mutate expf deterministic mutOpt newWeights us s).indices =
      encode expf deterministic newWeights us ∧
    (j ∉ encode expf deterministic newWeights us →
      (choice_mutate expf deterministic mutOpt newWeights us s).options[j]? =
        s.options[j]?) ∧
    (j ∈ encode expf deterministic newWeights us →
      (choice_mutate expf deterministic mutOpt newWeights us s).options[j]? =
        s.options[j]?.map mutOpt) := by
  refine ⟨rfl, rfl, ?_, ?_⟩
  · intro hj
    exact foldl_modify_getElem?_of_not_mem mutOpt
      (encode expf deterministic newWeights us).dedup s.options j
      (fun h => hj (List.mem_dedup.mp h))
  · intro hj
    exact foldl_modify_getElem?_of_mem mutOpt
      (encode expf deterministic newWeights us).dedup s.options j
      (List.nodup_dedup _) (List.mem_dedup.mpr hj)

/-- C7 witness: a concrete mutation of a 1-repetition `Choice` over three
options; the drawn index set is computed concretely and an option outside it
is bit-for-bit unchanged while the drawn one is mutated. -/
theorem choice_mutate_frame_witness :
    (choice_mutate expModel false (fun o => o + 1) [[0, 0, 0]] [0]
        (ChoiceState.mk [[1, 1, 1]] [5, 6, 7] [2])).options[1]? = some 6 ∧
    (choice_mutate expModel false (fun o => o + 1) [[0, 0, 0]] [0]
        (ChoiceState.mk [[1, 1, 1]] [5, 6, 7] [2])).options[0]? = some 6 := by
  have henc : encode expModel false [[0, 0, 0]] [0] = [0] := by
    norm_num [encode, row_decode, categorical_sample, expModel]
  have h1 := (choice_mutate_frame expModel false (fun o : ℕ => o + 1) [[0, 0, 0]] [0]
    (ChoiceState.mk [[1, 1, 1]] [5, 6, 7] [2]) 1).2.2.1
  have h0 := (choice_mutate_frame expModel false (fun o : ℕ => o + 1) [[0, 0, 0]] [0]
    (ChoiceState.mk [[1, 1, 1]] [5, 6, 7] [2]) 0).2.2.2
  constructor
  · rw [h1 (by rw [henc]; decide)]
    rfl
  · rw [h0 (by rw [henc]; decide)]
    rfl

/-! ## The singular `index` accessor under repetitions (C9) -/

/-- Embedding of `Choice.index` (lines 169-174): `assert self.indices.size == 1;
return int(self.indices[0])`.  The failed assertion (more than one drawn
index) is modelled as `none`. -/
def choice_single_index (indices : List ℕ) : Option ℕ :=
  if indices.length = 1 then some (indices.headD 0) else none

/-- C9: for a `Choice` with `repetitions = n` (weight matrix with `n` rows,
one uniform draw per row), reading the singular `index` property fails when
`n > 1` — its assertion `indices.size == 1` does not hold — while for a
single repetition it succeeds and returns `indices[0]`. -/
theorem choice_index_repetitions
    (expf : ℚ → ℚ) (deterministic : Bool) (n : ℕ)
    (w : List (List ℚ)) (us : List ℚ)
    (hrows : w.length = n) (hus : us.length = n) :
    (1 < n → choice_single_index (encode expf deterministic w us) = none) ∧
    (n = 1 → choice_single_index (encode expf deterministic w us) =
      some ((encode expf deterministic w us).headD 0)) := by
  have hlen := encode_length expf deterministic w us n hrows hus
  constructor
  · intro hn
    have hne : (encode expf deterministic w us).length ≠ 1 := by
      rw [hlen]
      omega
    simp [choice_single_index, hne]
  · intro hn
    have heq : (encode expf deterministic w us).length = 1 := by rw [hlen, hn]
    simp [choice_single_index, heq]

/-- C9 witness: with two repetitions (two weight rows) the singular accessor
fails; with a single row it returns the drawn index. -/
theorem choice_index_repetitions_witness :
    choice_single_index (encode expModel false [[0], [0]] [0, 0]) = none ∧
    choice_single_index (encode expModel false [[0]] [0]) =
      some ((encode expModel false [[0]] [0]).headD 0) :=
  ⟨(choice_index_repetitions expModel false 2 [[0], [0]] [0, 0] rfl rfl).1 (by norm_num),
   (choice_index_repetitions expModel false 1 [[0]] [0] rfl rfl).2 rfl⟩

/-! ## Value-hash shape (C10) -/

/-- The hashable summaries produced by `get_value_hash`: a bare integer
index, a pair of an index and a nested recursive hash, or a tuple of
entries. -/
inductive VHash where
  | idx : ℕ → VHash
  | pair : ℕ → VHash → VHash
  | tup : List VHash → VHash

/-- An option as seen by `BaseChoice.get_value_hash`: whether it is a
`Constant` or a non-`Parameter` plain value (`const` in line 97), and its own
recursive value hash (used only when it is a genuine parameter). -/
structure HashedOption where
  isConstLike : Bool
  valueHash : VHash

/-- Embedding of the per-index entry of `get_value_hash` (lines 96-98):
`int(ind) if const else (int(ind), c.get_value_hash())`. -/
def hash_entry (options : List HashedOption) (ind : ℕ) : VHash :=
  let c := options.getD ind ⟨true, VHash.idx 0⟩
  if c.isConstLike then VHash.idx ind else VHash.pair ind c.valueHash

/-- Embedding of `BaseChoice.get_value_hash` (lines 93-99): one entry per
drawn index, wrapped in a tuple only when there is more than one entry
(`tuple(hashes) if len(hashes) > 1 else hashes[0]`; the drawn index list of
any choice state is nonempty, so `hashes[0]` is modelled with a default). -/
def get_value_hash (options : List HashedOption) (indices : List ℕ) : VHash :=
  let hashes := indices.map (hash_entry options)
  if 1 < hashes.length then VHash.tup hashes else hashes.headD (VHash.idx 0)

/-- C10: `get_value_hash` returns the bare entry — index alone for a
constant-like option, index paired with the option's recursive hash
otherwise — when exactly one index is drawn (no 1-tuple wrapping), and a
tuple of entries exactly when more than one index is drawn. -/
theorem get_value_hash_unwrapped (options : List HashedOption) (indices : List ℕ) :
    (∀ i : ℕ, indices = [i] →
      get_value_hash options indices = hash_entry options i) ∧
    (1 < indices.length →
      get_value_hash options indices =
        VHash.tup (indices.map (hash_entry options))) := by
  constructor
  · intro i h
    subst h
    simp [get_value_hash]
  · intro h
    have hlen : 1 < (indices.map (hash_entry options)).length := by simpa using h
    simp only [get_value_hash]
    rw [if_pos hlen]

/-- C10 witness: over one constant-like and one parameter option, a single
drawn index yields a bare entry and two drawn indices yield a tuple. -/
theorem get_value_hash_unwrapped_witness :
    get_value_hash [⟨true, VHash.idx 0⟩, ⟨false, VHash.idx 7⟩] [1] =
      hash_entry [⟨true, VHash.idx 0⟩, ⟨false, VHash.idx 7⟩] 1 ∧
    get_value_hash [⟨true, VHash.idx 0⟩, ⟨false, VHash.idx 7⟩] [0, 1] =
      VHash.tup ([0, 1].map (hash_entry [⟨true, VHash.idx 0⟩, ⟨false, VHash.idx 7⟩])) :=
  ⟨(get_value_hash_unwrapped [⟨true, VHash.idx 0⟩, ⟨false, VHash.idx 7⟩] [1]).1 1 rfl,
   (get_value_hash_unwrapped [⟨true, VHash.idx 0⟩, ⟨false, VHash.idx 7⟩] [0, 1]).2
     (by norm_num)⟩

end ChoiceSpec
